import Mathlib

/-!
Verification development for the JNI bridge `llama_jni.cpp` of AndroGPT.

The development shallowly embeds the four text-processing routines of the
source file (`safeNewStringUTF`, `safeNewStringUTFStreaming`,
`sanitizeInputString`, and the generation loops of `nativeGenerate` /
`nativeGenerateStream`) as executable Lean functions over `List Nat`
(bytes and UTF-16 code units as natural numbers), with the inference
engine, sampler and cancellation flag modelled as oracles supplied in an
`Engine` structure.
-/

set_option maxRecDepth 10000

namespace LlamaJni

/-- UTF-16 encoding of one scalar value, as in the shared tail of both
transcoder loops (lines 205-213 / 86-94 of `llama_jni.cpp`): one code unit
for values up to 0xFFFF, otherwise a surrogate pair. -/
def utf16Encode (cp : Nat) : List Nat :=
  if cp ≤ 0xFFFF then [cp]
  else [0xD800 + ((cp - 0x10000) >>> 10), 0xDC00 + ((cp - 0x10000) &&& 0x3FF)]

/-- Result of one iteration of the scan loop of `safeNewStringUTFStreaming`:
either some code units are emitted and `k` bytes consumed, or an error is
diagnosed and `k` bytes skipped, or the remaining bytes form a truncated
multi-byte sequence (the loop breaks), or the input is exhausted. -/
inductive Step where
  | emit : List Nat → Nat → Step
  | err : Nat → Step
  | incomplete : Step
  | done : Step
  deriving DecidableEq, Repr

/-- One iteration of the `while (index < total)` loop of
`safeNewStringUTFStreaming` (lines 121-216), acting on the bytes from the
current index on.  The leading byte is classified, the expected length is
compared with the available bytes (break on truncation), continuation
bytes are checked (skip one byte on failure, as `index++`), and the decoded
codepoint is range-checked (skip the whole sequence on overlong/surrogate/
out-of-range, as `index += expected`). -/
def decodeStep : List Nat → Step
  | [] => .done
  | c :: rest =>
    if c ≤ 0x7F then
      .emit (utf16Encode c) 1
    else if c &&& 0xE0 = 0xC0 then
      match rest with
      | [] => .incomplete
      | c1 :: _ =>
        if ¬(c1 &&& 0xC0 = 0x80) then .err 1
        else
          let cp := ((c &&& 0x1F) <<< 6) ||| (c1 &&& 0x3F)
          if cp < 0x80 then .err 2 else .emit (utf16Encode cp) 2
    else if c &&& 0xF0 = 0xE0 then
      match rest with
      | c1 :: c2 :: _ =>
        if ¬(c1 &&& 0xC0 = 0x80) ∨ ¬(c2 &&& 0xC0 = 0x80) then .err 1
        else
          let cp := (((c &&& 0x0F) <<< 12) ||| ((c1 &&& 0x3F) <<< 6)) ||| (c2 &&& 0x3F)
          if cp < 0x800 ∨ (0xD800 ≤ cp ∧ cp ≤ 0xDFFF) then .err 3
          else .emit (utf16Encode cp) 3
      | _ => .incomplete
    else if c &&& 0xF8 = 0xF0 then
      match rest with
      | c1 :: c2 :: c3 :: _ =>
        if ¬(c1 &&& 0xC0 = 0x80) ∨ ¬(c2 &&& 0xC0 = 0x80) ∨ ¬(c3 &&& 0xC0 = 0x80) then .err 1
        else
          let cp := ((((c &&& 0x07) <<< 18) ||| ((c1 &&& 0x3F) <<< 12)) |||
                      ((c2 &&& 0x3F) <<< 6)) ||| (c3 &&& 0x3F)
          if cp < 0x10000 ∨ 0x10FFFF < cp then .err 4
          else .emit (utf16Encode cp) 4
      | _ => .incomplete
    else .err 1

/-- The scan loop of `safeNewStringUTFStreaming`, iterating `decodeStep`.
The first component is the emitted UTF-16 code units, the second the
unconsumed tail (what the source assigns to `remainder` after the loop:
empty when the input was fully consumed, the truncated suffix otherwise).
`fuel` only bounds the recursion; every call below passes at least the
length of the list, which suffices because each step consumes at least
one byte. -/
def scanGo (fuel : Nat) (l : List Nat) : List Nat × List Nat :=
  match fuel with
  | 0 => ([], l)
  | fuel + 1 =>
    match decodeStep l with
    | .emit us k =>
      let r := scanGo fuel (l.drop k)
      (us ++ r.1, r.2)
    | .err k => scanGo fuel (l.drop k)
    | _ => ([], l)

/-- Scan a whole byte list: code units produced and remainder left. -/
def scanStream (l : List Nat) : List Nat × List Nat :=
  scanGo l.length l

/-- `safeNewStringUTFStreaming` (lines 107-229): the incoming remainder is
prepended to the chunk (`combined = remainder; combined.append(chunk)`),
the combined buffer is scanned, and the new remainder is the unconsumed
tail (lines 218-222).  Returns (emitted UTF-16 code units, new remainder). -/
def safeNewStringUTFStreaming (chunk remainder : List Nat) : List Nat × List Nat :=
  scanStream (remainder ++ chunk)

/-- Feed a list of chunks through `safeNewStringUTFStreaming` in order,
carrying the remainder between the calls and concatenating the outputs. -/
def streamChunks : List (List Nat) → List Nat → List Nat × List Nat
  | [], rem => ([], rem)
  | ch :: rest, rem =>
    let r1 := safeNewStringUTFStreaming ch rem
    let r2 := streamChunks rest r1.2
    (r1.1 ++ r2.1, r2.2)

/-- `safeNewStringUTF` (lines 24-102): decode a NUL-terminated UTF-8 byte
string into UTF-16 code units.  The list holds the bytes before the
terminator; reading past the end of the list yields 0, exactly as the C
code reads the NUL terminator (short-circuit evaluation in the C source
never reads beyond the first NUL).  A zero head byte ends the scan, as
`while (*ptr)` does. -/
def safeNewStringUTF (l : List Nat) : List Nat :=
  match l with
  | [] => []
  | c :: rest =>
    if c = 0 then []
    else if c ≤ 0x7F then utf16Encode c ++ safeNewStringUTF rest
    else if c &&& 0xE0 = 0xC0 then
      if ¬((rest.getD 0 0) &&& 0xC0 = 0x80) then safeNewStringUTF rest
      else
        let cp := ((c &&& 0x1F) <<< 6) ||| ((rest.getD 0 0) &&& 0x3F)
        if cp < 0x80 then safeNewStringUTF (rest.drop 1)
        else utf16Encode cp ++ safeNewStringUTF (rest.drop 1)
    else if c &&& 0xF0 = 0xE0 then
      if ¬((rest.getD 0 0) &&& 0xC0 = 0x80) ∨ ¬((rest.getD 1 0) &&& 0xC0 = 0x80) then
        safeNewStringUTF rest
      else
        let cp := (((c &&& 0x0F) <<< 12) ||| (((rest.getD 0 0) &&& 0x3F) <<< 6)) |||
                    ((rest.getD 1 0) &&& 0x3F)
        if cp < 0x800 ∨ (0xD800 ≤ cp ∧ cp ≤ 0xDFFF) then safeNewStringUTF (rest.drop 2)
        else utf16Encode cp ++ safeNewStringUTF (rest.drop 2)
    else if c &&& 0xF8 = 0xF0 then
      if ¬((rest.getD 0 0) &&& 0xC0 = 0x80) ∨ ¬((rest.getD 1 0) &&& 0xC0 = 0x80) ∨
          ¬((rest.getD 2 0) &&& 0xC0 = 0x80) then
        safeNewStringUTF rest
      else
        let cp := ((((c &&& 0x07) <<< 18) ||| (((rest.getD 0 0) &&& 0x3F) <<< 12)) |||
                    (((rest.getD 1 0) &&& 0x3F) <<< 6)) ||| ((rest.getD 2 0) &&& 0x3F)
        if cp < 0x10000 ∨ 0x10FFFF < cp then safeNewStringUTF (rest.drop 3)
        else utf16Encode cp ++ safeNewStringUTF (rest.drop 3)
    else safeNewStringUTF rest
termination_by l.length
decreasing_by all_goals (simp [List.length_drop] <;> omega)

/-- The surrogate-merging formula of `sanitizeInputString` (line 258):
`codepoint = (((codepoint - 0xD800) << 10) | (low - 0xDC00)) + 0x10000`. -/
def mergeSurrogates (hi lo : Nat) : Nat :=
  (((hi - 0xD800) <<< 10) ||| (lo - 0xDC00)) + 0x10000

/-- The UTF-8 encoding tail of `sanitizeInputString` (lines 273-289): a
scalar value is appended as 1-4 bytes by its magnitude; values beyond
0x10FFFF append nothing (diagnostic only). -/
def utf8EncodeCp (cp : Nat) : List Nat :=
  if cp ≤ 0x7F then [cp]
  else if cp ≤ 0x7FF then
    [0xC0 ||| (cp >>> 6), 0x80 ||| (cp &&& 0x3F)]
  else if cp ≤ 0xFFFF then
    [0xE0 ||| (cp >>> 12), 0x80 ||| ((cp >>> 6) &&& 0x3F), 0x80 ||| (cp &&& 0x3F)]
  else if cp ≤ 0x10FFFF then
    [0xF0 ||| (cp >>> 18), 0x80 ||| ((cp >>> 12) &&& 0x3F),
     0x80 ||| ((cp >>> 6) &&& 0x3F), 0x80 ||| (cp &&& 0x3F)]
  else []

/-- `sanitizeInputString` (lines 235-295): scan a UTF-16 code-unit list;
a high surrogate followed by a low surrogate is merged and both consumed;
a high surrogate with a wrong partner is dropped (one unit consumed); a
high surrogate at the very end breaks the scan; a lone low surrogate is
dropped; every resulting codepoint is UTF-8 encoded. -/
def sanitizeInputString (l : List Nat) : List Nat :=
  match l with
  | [] => []
  | u :: rest =>
    if 0xD800 ≤ u ∧ u ≤ 0xDBFF then
      match rest with
      | [] => []
      | lo :: rest2 =>
        if 0xDC00 ≤ lo ∧ lo ≤ 0xDFFF then
          utf8EncodeCp (mergeSurrogates u lo) ++ sanitizeInputString rest2
        else sanitizeInputString (lo :: rest2)
    else if 0xDC00 ≤ u ∧ u ≤ 0xDFFF then sanitizeInputString rest
    else utf8EncodeCp u ++ sanitizeInputString rest

/-- A code unit in the high-surrogate range [0xD800, 0xDBFF]. -/
def isHighB (u : Nat) : Bool := 0xD800 ≤ u && u ≤ 0xDBFF

/-- A code unit in the low-surrogate range [0xDC00, 0xDFFF]. -/
def isLowB (u : Nat) : Bool := 0xDC00 ≤ u && u ≤ 0xDFFF

/-- Scanner for well-formed UTF-16.  The Boolean state records whether the
previous unit was an unpaired high surrogate, in which case the current
unit must be a low surrogate; otherwise a high surrogate arms the state,
a lone low surrogate is rejected, and any other unit passes. -/
def wf16go : Bool → List Nat → Bool
  | expectLow, [] => !expectLow
  | true, u :: rest => isLowB u && wf16go false rest
  | false, u :: rest =>
    if isHighB u then wf16go true rest
    else !isLowB u && wf16go false rest

/-- Well-formed UTF-16: every high surrogate is immediately followed by a
low surrogate (the pair standing for one scalar value), and no low
surrogate occurs unpaired. -/
def wf16 (l : List Nat) : Bool := wf16go false l

/-- Does the pattern occur as a prefix of the list. -/
def startsWith : List Nat → List Nat → Bool
  | _, [] => true
  | [], _ :: _ => false
  | a :: as, b :: bs => a = b && startsWith as bs

/-- Does the pattern occur as a contiguous substring of the list, as
`std::string::find(pat) != npos` does. -/
def containsSeq (pat : List Nat) : List Nat → Bool
  | [] => startsWith [] pat
  | c :: rest => startsWith (c :: rest) pat || containsSeq pat rest

/-- The Phi-3 stop markers scanned for by both generation loops (lines
495-498 and 628-631), as ASCII byte lists.  In order:
`<|end|>`, `<|user|>`, `<|assistant|>`, `<|system|>`. -/
def stopSeqs : List (List Nat) :=
  [[60, 124, 101, 110, 100, 124, 62],
   [60, 124, 117, 115, 101, 114, 124, 62],
   [60, 124, 97, 115, 115, 105, 115, 116, 97, 110, 116, 124, 62],
   [60, 124, 115, 121, 115, 116, 101, 109, 124, 62]]

/-- Does the accumulated text contain one of the stop markers. -/
def hitsStop (acc : List Nat) : Bool :=
  stopSeqs.any (fun pat => containsSeq pat acc)

/-- Oracle model of the collaborators of the generation loops: the llama
context/sampler pair (`sample`, indexed by the loop iteration), the vocab
(`isEog`, `piece` per token id), the decode result per iteration
(`decodeOk`), the value of the atomic `g_should_stop` flag as read at each
iteration (`shouldStop`), the context size, token budget, prompt token
count, and the result of the initial prompt decode. -/
structure Engine where
  nCtx : Nat
  nPredict : Nat
  nPrompt : Nat
  sample : Nat → Nat
  isEog : Nat → Bool
  piece : Nat → List Nat
  decodeOk : Nat → Bool
  shouldStop : Nat → Bool
  initDecodeOk : Bool

/-- Cause of the generation loop ending: the `while` condition failing
(token budget, context window, or — streaming only — the cancellation
flag), an end-of-generation token, a stop marker in the accumulated text,
or a failed `llama_decode`. -/
inductive Reason where
  | condExit | eos | stopMarker | decodeFail
  deriving DecidableEq, Repr

/-- Observable outcome of the streaming generation loop. -/
structure LoopResult where
  emitted : List (Nat × List Nat)
  samples : Nat
  nDecode : Nat
  nCur : Nat
  acc : List Nat
  rem : List Nat
  reason : Reason
  exitStep : Nat
  deriving DecidableEq, Repr

/-- The generation loop of `nativeGenerateStream` (lines 614-664).  Each
iteration: check `n_cur <= n_ctx && n_decode < n_predict &&
!g_should_stop`; sample; break on EOS; append the token piece to the
accumulated text; break if a stop marker is now contained; if the piece
is non-empty, run it through the streaming transcoder and emit the result
when non-empty; advance the counters; break if `llama_decode` fails.
`emitted` pairs each delivered fragment with its iteration index;
`samples` counts sampler calls.  The fuel is always instantiated with
`nPredict - nDecode`, which dominates the loop because the condition
requires `nDecode < nPredict` and every continuing iteration increments
`nDecode`. -/
def genLoopStream (E : Engine) :
    Nat → Nat → Nat → Nat → List Nat → List Nat → LoopResult
  | 0, step, nCur, nDec, acc, rem =>
    ⟨[], 0, nDec, nCur, acc, rem, .condExit, step⟩
  | fuel + 1, step, nCur, nDec, acc, rem =>
    if nCur ≤ E.nCtx ∧ nDec < E.nPredict ∧ E.shouldStop step = false then
      let tok := E.sample step
      if E.isEog tok then ⟨[], 1, nDec, nCur, acc, rem, .eos, step⟩
      else
        let acc2 := acc ++ E.piece tok
        if hitsStop acc2 then ⟨[], 1, nDec, nCur, acc2, rem, .stopMarker, step⟩
        else
          let er : List (Nat × List Nat) × List Nat :=
            if E.piece tok = [] then ([], rem)
            else
              let tr := safeNewStringUTFStreaming (E.piece tok) rem
              (if tr.1 = [] then [] else [(step, tr.1)], tr.2)
          if E.decodeOk step = false then
            ⟨er.1, 1, nDec + 1, nCur + 1, acc2, er.2, .decodeFail, step⟩
          else
            let r := genLoopStream E fuel (step + 1) (nCur + 1) (nDec + 1) acc2 er.2
            ⟨er.1 ++ r.emitted, r.samples + 1, r.nDecode, r.nCur, r.acc, r.rem,
             r.reason, r.exitStep⟩
    else ⟨[], 0, nDec, nCur, acc, rem, .condExit, step⟩

/-- Observable events delivered to the streaming callback object. -/
inductive Ev where
  | tok : List Nat → Ev
  | complete : Ev
  deriving DecidableEq, Repr

/-- Number of `onComplete` invocations in an event list. -/
def countComplete : List Ev → Nat
  | [] => 0
  | Ev.complete :: r => countComplete r + 1
  | Ev.tok _ :: r => countComplete r

/-- `nativeGenerateStream` (lines 527-688) as the sequence of callback
invocations it performs.  With no model or context loaded it returns at
once (lines 539-542) without touching the callback; a failed initial
prompt decode calls `onComplete` only (lines 590-605); otherwise the
generation loop runs, the remainder is flushed through the transcoder
with an empty chunk when non-empty (lines 669-682, delivering a non-empty
residual fragment), and `onComplete` is called (line 685). -/
def nativeGenerateStream (modelLoaded : Bool) (E : Engine) : List Ev :=
  if modelLoaded = false then []
  else if E.initDecodeOk = false then [Ev.complete]
  else
    let r := genLoopStream E E.nPredict 0 E.nPrompt 0 [] []
    let main := r.emitted.map (fun p => Ev.tok p.2)
    let flush :=
      if r.rem = [] then []
      else
        let tr := safeNewStringUTFStreaming [] r.rem
        if tr.1 = [] then [] else [Ev.tok tr.1]
    main ++ flush ++ [Ev.complete]

/-- Observable outcome of the batch generation loop of `nativeGenerate`. -/
structure BatchResult where
  text : List Nat
  samples : Nat
  nDecode : Nat
  reason : Reason
  deriving DecidableEq, Repr

/-- The generation loop of `nativeGenerate` (lines 481-514).  Same
structure as the streaming loop, but the `while` condition is only
`n_cur <= n_ctx && n_decode < n_predict` — the cancellation flag is never
read — and pieces are appended to `result` instead of being emitted. -/
def genLoopBatch (E : Engine) : Nat → Nat → Nat → Nat → List Nat → BatchResult
  | 0, _, _, nDec, res => ⟨res, 0, nDec, .condExit⟩
  | fuel + 1, step, nCur, nDec, res =>
    if nCur ≤ E.nCtx ∧ nDec < E.nPredict then
      let tok := E.sample step
      if E.isEog tok then ⟨res, 1, nDec, .eos⟩
      else
        let res2 := res ++ E.piece tok
        if hitsStop res2 then ⟨res2, 1, nDec, .stopMarker⟩
        else if E.decodeOk step = false then ⟨res2, 1, nDec + 1, .decodeFail⟩
        else
          let r := genLoopBatch E fuel (step + 1) (nCur + 1) (nDec + 1) res2
          ⟨r.text, r.samples + 1, r.nDecode, r.reason⟩
    else ⟨res, 0, nDec, .condExit⟩

/-- `nativeGenerate` (lines 419-521): empty string when no model/context
is loaded or the initial decode fails, otherwise the accumulated result
of the batch loop converted by `safeNewStringUTF`. -/
def nativeGenerate (modelLoaded : Bool) (E : Engine) : List Nat :=
  if modelLoaded = false then []
  else if E.initDecodeOk = false then []
  else safeNewStringUTF (genLoopBatch E E.nPredict 0 E.nPrompt 0 []).text

/-- A concrete engine whose every sampled token decodes to the `<|end|>`
stop marker: used to exercise the stop-marker exit of the streaming loop. -/
def engStop : Engine :=
  ⟨10, 5, 1, fun _ => 0, fun _ => false, fun _ => [60, 124, 101, 110, 100, 124, 62],
   fun _ => true, fun _ => false, true⟩

/-- A concrete engine whose cancellation flag reads `true` at every
iteration, sampling plain `A` bytes: used to exercise the cancellation
behaviour of the two loops. -/
def engFlag : Engine :=
  ⟨10, 2, 1, fun _ => 0, fun _ => false, fun _ => [65],
   fun _ => true, fun _ => true, true⟩

/-! Helper lemmas about `decodeStep`. -/

lemma decodeStep_done_iff {l : List Nat} : decodeStep l = .done ↔ l = [] := by
  constructor
  · intro h
    rcases l with _ | ⟨c, _ | ⟨c1, _ | ⟨c2, _ | ⟨c3, rest⟩⟩⟩⟩ <;>
      simp only [decodeStep] at h <;> (try split_ifs at h) <;> simp_all
  · intro h; subst h; rfl

lemma decodeStep_emit_bounds {l us : List Nat} {k : Nat}
    (h : decodeStep l = .emit us k) : 1 ≤ k ∧ k ≤ l.length := by
  rcases l with _ | ⟨c, _ | ⟨c1, _ | ⟨c2, _ | ⟨c3, rest⟩⟩⟩⟩ <;>
    simp only [decodeStep] at h <;> (try split_ifs at h) <;>
    (try simp_all) <;> omega

lemma decodeStep_err_bounds {l : List Nat} {k : Nat}
    (h : decodeStep l = .err k) : 1 ≤ k ∧ k ≤ l.length ∧ k ≤ 4 := by
  rcases l with _ | ⟨c, _ | ⟨c1, _ | ⟨c2, _ | ⟨c3, rest⟩⟩⟩⟩ <;>
    simp only [decodeStep] at h <;> (try split_ifs at h) <;>
    (try simp_all) <;> omega

lemma decodeStep_incomplete_len {l : List Nat}
    (h : decodeStep l = .incomplete) : l.length ≤ 3 ∧ l ≠ [] := by
  rcases l with _ | ⟨c, _ | ⟨c1, _ | ⟨c2, _ | ⟨c3, rest⟩⟩⟩⟩ <;>
    simp only [decodeStep] at h <;> (try split_ifs at h) <;> simp_all

lemma decodeStep_append_emit {l B us : List Nat} {k : Nat}
    (h : decodeStep l = .emit us k) : decodeStep (l ++ B) = .emit us k := by
  rcases l with _ | ⟨c, _ | ⟨c1, _ | ⟨c2, _ | ⟨c3, rest⟩⟩⟩⟩ <;>
    simp only [decodeStep, List.cons_append, List.nil_append] at h ⊢ <;>
    (try split_ifs at h ⊢) <;> simp_all

lemma decodeStep_append_err {l B : List Nat} {k : Nat}
    (h : decodeStep l = .err k) : decodeStep (l ++ B) = .err k := by
  rcases l with _ | ⟨c, _ | ⟨c1, _ | ⟨c2, _ | ⟨c3, rest⟩⟩⟩⟩ <;>
    simp only [decodeStep, List.cons_append, List.nil_append] at h ⊢ <;>
    (try split_ifs at h ⊢) <;> simp_all

/-! Helper lemmas about `scanGo` and `scanStream`. -/

lemma scanGo_nil (fuel : Nat) : scanGo fuel [] = ([], []) := by
  cases fuel <;> simp [scanGo, decodeStep]

lemma scanGo_fuel : ∀ f1 f2 l, l.length ≤ f1 → l.length ≤ f2 →
    scanGo f1 l = scanGo f2 l := by
  intro f1
  induction f1 with
  | zero =>
    intro f2 l h1 _
    have : l = [] := List.length_eq_zero.mp (Nat.le_zero.mp h1)
    subst this
    simp [scanGo_nil]
  | succ n ih =>
    intro f2 l h1 h2
    rcases l with _ | ⟨c, rest⟩
    · simp [scanGo_nil]
    rcases f2 with _ | m
    · simp at h2
    cases h : decodeStep (c :: rest) with
    | emit us k =>
      have hb := decodeStep_emit_bounds h
      have hd : ((c :: rest).drop k).length ≤ n := by
        simp only [List.length_drop, List.length_cons] at hb h1 ⊢
        omega
      have hd2 : ((c :: rest).drop k).length ≤ m := by
        simp only [List.length_drop, List.length_cons] at hb h2 ⊢
        omega
      simp only [scanGo, h]
      rw [ih _ _ hd hd2]
    | err k =>
      have hb := decodeStep_err_bounds h
      have hd : ((c :: rest).drop k).length ≤ n := by
        simp only [List.length_drop, List.length_cons] at hb h1 ⊢
        omega
      have hd2 : ((c :: rest).drop k).length ≤ m := by
        simp only [List.length_drop, List.length_cons] at hb h2 ⊢
        omega
      simp only [scanGo, h]
      rw [ih _ _ hd hd2]
    | incomplete => simp only [scanGo, h]
    | done => simp only [scanGo, h]

/-- Unfolding rule for `scanStream`: one `decodeStep`, then the scan of
whatever was not consumed. -/
lemma scanStream_step (l : List Nat) :
    scanStream l =
      match decodeStep l with
      | .emit us k => (us ++ (scanStream (l.drop k)).1, (scanStream (l.drop k)).2)
      | .err k => scanStream (l.drop k)
      | _ => ([], l) := by
  rcases l with _ | ⟨c, rest⟩
  · simp [scanStream, scanGo_nil, decodeStep]
  · cases h : decodeStep (c :: rest) with
    | emit us k =>
      have hb := decodeStep_emit_bounds h
      have he : scanGo rest.length ((c :: rest).drop k) = scanStream ((c :: rest).drop k) := by
        apply scanGo_fuel
        · simp only [List.length_drop, List.length_cons] at hb ⊢
          omega
        · exact Nat.le_refl _
      show scanGo ((c :: rest).length) (c :: rest) = _
      simp only [List.length_cons, scanGo, h, he]
    | err k =>
      have hb := decodeStep_err_bounds h
      have he : scanGo rest.length ((c :: rest).drop k) = scanStream ((c :: rest).drop k) := by
        apply scanGo_fuel
        · simp only [List.length_drop, List.length_cons] at hb ⊢
          omega
        · exact Nat.le_refl _
      show scanGo ((c :: rest).length) (c :: rest) = _
      simp only [List.length_cons, scanGo, h, he]
    | incomplete =>
      show scanGo ((c :: rest).length) (c :: rest) = _
      simp only [List.length_cons, scanGo, h]
    | done =>
      show scanGo ((c :: rest).length) (c :: rest) = _
      simp only [List.length_cons, scanGo, h]

lemma scanStream_nil : scanStream [] = ([], []) := rfl

/-- Resuming a scan: scanning `l ++ B` emits what scanning `l` emits,
followed by what scanning the leftover remainder of `l` prepended to `B`
emits; the final remainder also agrees. -/
lemma scan_append : ∀ (l B : List Nat),
    scanStream (l ++ B) =
      ((scanStream l).1 ++ (scanStream ((scanStream l).2 ++ B)).1,
       (scanStream ((scanStream l).2 ++ B)).2) := by
  suffices H : ∀ (n : Nat) (l B : List Nat), l.length ≤ n →
      scanStream (l ++ B) =
        ((scanStream l).1 ++ (scanStream ((scanStream l).2 ++ B)).1,
         (scanStream ((scanStream l).2 ++ B)).2) by
    intro l B
    exact H l.length l B (Nat.le_refl _)
  intro n
  induction n with
  | zero =>
    intro l B h
    have : l = [] := List.length_eq_zero.mp (Nat.le_zero.mp h)
    subst this
    simp [scanStream_nil]
  | succ n ih =>
    intro l B hlen
    cases h : decodeStep l with
    | done =>
      have : l = [] := decodeStep_done_iff.mp h
      subst this
      simp [scanStream_nil]
    | incomplete =>
      have h1 : scanStream l = ([], l) := by rw [scanStream_step l, h]
      simp [h1]
    | emit us k =>
      have hb := decodeStep_emit_bounds h
      have h1 : scanStream l =
          (us ++ (scanStream (l.drop k)).1, (scanStream (l.drop k)).2) := by
        rw [scanStream_step l, h]
      have h2 : decodeStep (l ++ B) = .emit us k := decodeStep_append_emit h
      have h3 : scanStream (l ++ B) =
          (us ++ (scanStream ((l ++ B).drop k)).1, (scanStream ((l ++ B).drop k)).2) := by
        rw [scanStream_step (l ++ B), h2]
      have h4 : (l ++ B).drop k = l.drop k ++ B := List.drop_append_of_le_length hb.2
      have ihs := ih (l.drop k) B (by simp only [List.length_drop]; omega)
      rw [h3, h4, ihs, h1]
      simp [List.append_assoc]
    | err k =>
      have hb := decodeStep_err_bounds h
      have h1 : scanStream l = scanStream (l.drop k) := by
        rw [scanStream_step l, h]
      have h2 : decodeStep (l ++ B) = .err k := decodeStep_append_err h
      have h3 : scanStream (l ++ B) = scanStream ((l ++ B).drop k) := by
        rw [scanStream_step (l ++ B), h2]
      have h4 : (l ++ B).drop k = l.drop k ++ B := List.drop_append_of_le_length hb.2.1
      have ihs := ih (l.drop k) B (by simp only [List.length_drop]; omega)
      rw [h3, h4, ihs, h1]

/-- A remainder left by a scan cannot be decoded further: scanning it
alone emits nothing and leaves it unchanged. -/
lemma scan_incomplete_fix {r : List Nat} (h : decodeStep r = .incomplete) :
    scanStream r = ([], r) := by
  rw [scanStream_step r, h]

/-- The remainder left by any scan is either empty or a truncated
multi-byte sequence (on which `decodeStep` reports `incomplete`). -/
lemma scan_rem_stable : ∀ (l : List Nat),
    (scanStream l).2 = [] ∨ decodeStep ((scanStream l).2) = .incomplete := by
  suffices H : ∀ (n : Nat) (l : List Nat), l.length ≤ n →
      (scanStream l).2 = [] ∨ decodeStep ((scanStream l).2) = .incomplete by
    intro l
    exact H l.length l (Nat.le_refl _)
  intro n
  induction n with
  | zero =>
    intro l h
    have : l = [] := List.length_eq_zero.mp (Nat.le_zero.mp h)
    subst this
    simp [scanStream_nil]
  | succ n ih =>
    intro l hlen
    cases h : decodeStep l with
    | done =>
      have : l = [] := decodeStep_done_iff.mp h
      subst this
      simp [scanStream_nil]
    | incomplete =>
      rw [scan_incomplete_fix h]
      right
      exact h
    | emit us k =>
      have hb := decodeStep_emit_bounds h
      have h1 : (scanStream l).2 = (scanStream (l.drop k)).2 := by
        rw [scanStream_step l, h]
      rw [h1]
      exact ih (l.drop k) (by simp only [List.length_drop]; omega)
    | err k =>
      have hb := decodeStep_err_bounds h
      have h1 : (scanStream l).2 = (scanStream (l.drop k)).2 := by
        rw [scanStream_step l, h]
      rw [h1]
      exact ih (l.drop k) (by simp only [List.length_drop]; omega)

/-- Chunk-streaming with any stable starting remainder equals one scan of
the remainder followed by all the chunk bytes. -/
lemma streamChunks_eq_scan : ∀ (cs : List (List Nat)) (rem : List Nat),
    (rem = [] ∨ decodeStep rem = .incomplete) →
    streamChunks cs rem = scanStream (rem ++ cs.flatten) := by
  intro cs
  induction cs with
  | nil =>
    intro rem hrem
    rcases hrem with h | h
    · subst h
      simp [streamChunks, scanStream_nil]
    · simp only [streamChunks, List.flatten_nil, List.append_nil]
      rw [scan_incomplete_fix h]
  | cons ch rest ih =>
    intro rem hrem
    have hr : streamChunks (ch :: rest) rem =
        ((scanStream (rem ++ ch)).1 ++ (streamChunks rest ((scanStream (rem ++ ch)).2)).1,
         (streamChunks rest ((scanStream (rem ++ ch)).2)).2) := rfl
    have hstable := scan_rem_stable (rem ++ ch)
    have ihs := ih ((scanStream (rem ++ ch)).2) hstable
    have happ := scan_append (rem ++ ch) rest.flatten
    rw [hr, ihs]
    have : rem ++ (ch :: rest).flatten = (rem ++ ch) ++ rest.flatten := by
      simp [List.flatten_cons, List.append_assoc]
    rw [this, happ]

/-- The remainder buffer left by any scan holds at most 3 bytes. -/
lemma scan_rem_len (l : List Nat) : (scanStream l).2.length ≤ 3 := by
  rcases scan_rem_stable l with h | h
  · rw [h]; simp
  · exact (decodeStep_incomplete_len h).1

/-! Bounds on the codepoints assembled from masked continuation bytes. -/

lemma cp2_lt (a b : Nat) : ((a &&& 0x1F) <<< 6) ||| (b &&& 0x3F) < 0x800 := by
  have h1 : a &&& 0x1F < 2 ^ 5 := Nat.and_lt_two_pow a (by norm_num)
  have h2 : (a &&& 0x1F) <<< 6 < 2 ^ 11 := Nat.shiftLeft_lt h1
  have h3 : b &&& 0x3F < 2 ^ 6 := Nat.and_lt_two_pow b (by norm_num)
  have h4 : b &&& 0x3F < 2 ^ 11 := lt_trans h3 (by norm_num)
  have := Nat.or_lt_two_pow h2 h4
  norm_num at this
  exact this

lemma cp3_lt (a b c : Nat) :
    (((a &&& 0x0F) <<< 12) ||| ((b &&& 0x3F) <<< 6)) ||| (c &&& 0x3F) < 0x10000 := by
  have h1 : a &&& 0x0F < 2 ^ 4 := Nat.and_lt_two_pow a (by norm_num)
  have h2 : (a &&& 0x0F) <<< 12 < 2 ^ 16 := Nat.shiftLeft_lt h1
  have h3 : b &&& 0x3F < 2 ^ 6 := Nat.and_lt_two_pow b (by norm_num)
  have h4 : (b &&& 0x3F) <<< 6 < 2 ^ 12 := Nat.shiftLeft_lt h3
  have h5 : (b &&& 0x3F) <<< 6 < 2 ^ 16 := lt_trans h4 (by norm_num)
  have h6 : c &&& 0x3F < 2 ^ 16 :=
    lt_trans (Nat.and_lt_two_pow c (show (0x3F : Nat) < 2 ^ 6 by norm_num)) (by norm_num)
  have h7 := Nat.or_lt_two_pow (Nat.or_lt_two_pow h2 h5) h6
  norm_num at h7
  exact h7

/-! Well-formedness of the UTF-16 encoder output. -/

lemma utf16Encode_wf {cp : Nat} (h1 : cp ≤ 0x10FFFF)
    (h2 : ¬(0xD800 ≤ cp ∧ cp ≤ 0xDFFF)) : wf16 (utf16Encode cp) = true := by
  unfold utf16Encode
  split_ifs with hle
  · have hh : isHighB cp = false := by
      simp only [isHighB, Bool.and_eq_false_iff, decide_eq_false_iff_not]
      omega
    have hl : isLowB cp = false := by
      simp only [isLowB, Bool.and_eq_false_iff, decide_eq_false_iff_not]
      omega
    simp [wf16, wf16go, hh, hl]
  · have hd : cp - 0x10000 ≤ 0xFFFFF := by omega
    have hq : (cp - 0x10000) >>> 10 ≤ 0x3FF := by
      rw [Nat.shiftRight_eq_div_pow]
      exact le_trans (Nat.div_le_div_right hd) (by norm_num)
    have hr : (cp - 0x10000) &&& 0x3FF ≤ 0x3FF := by
      have h01 : (0x3FF : Nat) = 2 ^ 10 - 1 := by norm_num
      rw [h01, Nat.and_pow_two_sub_one_eq_mod]
      have := Nat.mod_lt (cp - 0x10000) (show 0 < 2 ^ 10 by norm_num)
      omega
    have hh : isHighB (0xD800 + ((cp - 0x10000) >>> 10)) = true := by
      simp only [isHighB, Bool.and_eq_true, decide_eq_true_eq]
      omega
    have hl : isLowB (0xDC00 + ((cp - 0x10000) &&& 0x3FF)) = true := by
      simp only [isLowB, Bool.and_eq_true, decide_eq_true_eq]
      omega
    simp [wf16, wf16go, hh, hl]

lemma wf16go_append : ∀ (a b : List Nat) (s : Bool), wf16go s a = true →
    wf16go false b = true → wf16go s (a ++ b) = true := by
  intro a
  induction a with
  | nil =>
    intro b s ha hb
    cases s
    · simpa using hb
    · simp [wf16go] at ha
  | cons u rest ih =>
    intro b s ha hb
    cases s
    · cases hu : isHighB u
      · simp [wf16go, hu] at ha ⊢
        exact ⟨ha.1, ih b false ha.2 hb⟩
      · simp [wf16go, hu] at ha ⊢
        exact ih b true ha hb
    · simp [wf16go] at ha ⊢
      exact ⟨ha.1, ih b false ha.2 hb⟩

lemma wf16_append {a b : List Nat} (ha : wf16 a = true) (hb : wf16 b = true) :
    wf16 (a ++ b) = true :=
  wf16go_append a b false ha hb

lemma decodeStep_emit_wf {l us : List Nat} {k : Nat}
    (h : decodeStep l = .emit us k) : wf16 us = true := by
  rcases l with _ | ⟨c, _ | ⟨c1, _ | ⟨c2, _ | ⟨c3, rest⟩⟩⟩⟩ <;>
    [skip;
     (have hb2 := cp2_lt c 0);
     (have hb2 := cp2_lt c c1);
     (have hb2 := cp2_lt c c1; have hb3 := cp3_lt c c1 c2);
     (have hb2 := cp2_lt c c1; have hb3 := cp3_lt c c1 c2)] <;>
    simp only [decodeStep] at h <;>
    (try split_ifs at h) <;>
    (try cases h) <;>
    (try apply utf16Encode_wf) <;>
    omega

lemma scanGo_wf : ∀ (fuel : Nat) (l : List Nat), wf16 ((scanGo fuel l).1) = true := by
  intro fuel
  induction fuel with
  | zero => intro l; rfl
  | succ n ih =>
    intro l
    cases h : decodeStep l with
    | emit us k =>
      simp only [scanGo, h]
      exact wf16_append (decodeStep_emit_wf h) (ih _)
    | err k => simp only [scanGo, h]; exact ih _
    | incomplete => simp only [scanGo, h]; rfl
    | done => simp only [scanGo, h]; rfl

lemma safeNewStringUTF_wf : ∀ (l : List Nat), wf16 (safeNewStringUTF l) = true := by
  suffices H : ∀ (n : Nat) (l : List Nat), l.length ≤ n →
      wf16 (safeNewStringUTF l) = true by
    intro l
    exact H l.length l (Nat.le_refl _)
  intro n
  induction n with
  | zero =>
    intro l h
    have : l = [] := List.length_eq_zero.mp (Nat.le_zero.mp h)
    subst this
    simp [safeNewStringUTF, wf16, wf16go]
  | succ n ih =>
    intro l hlen
    rcases l with - | ⟨c, rest⟩
    · simp [safeNewStringUTF, wf16, wf16go]
    have hr : rest.length ≤ n := by
      simp only [List.length_cons] at hlen
      omega
    have hd1 : (rest.drop 1).length ≤ n := by simp only [List.length_drop]; omega
    have hd2 : (rest.drop 2).length ≤ n := by simp only [List.length_drop]; omega
    have hd3 : (rest.drop 3).length ≤ n := by simp only [List.length_drop]; omega
    have hb2 := cp2_lt c (rest.getD 0 0)
    have hb3 := cp3_lt c (rest.getD 0 0) (rest.getD 1 0)
    simp only [safeNewStringUTF]
    split_ifs <;>
      first
        | rfl
        | exact ih rest hr
        | exact ih (rest.drop 1) hd1
        | exact ih (rest.drop 2) hd2
        | exact ih (rest.drop 3) hd3
        | (apply wf16_append _ (ih rest hr); apply utf16Encode_wf <;> omega)
        | (apply wf16_append _ (ih (rest.drop 1) hd1); apply utf16Encode_wf <;> omega)
        | (apply wf16_append _ (ih (rest.drop 2) hd2); apply utf16Encode_wf <;> omega)
        | (apply wf16_append _ (ih (rest.drop 3) hd3); apply utf16Encode_wf <;> omega)

/-! Lemmas about the generation loops. -/

lemma genLoopStream_samples_le (E : Engine) :
    ∀ (fuel step nCur nDec : Nat) (acc rem : List Nat),
      (genLoopStream E fuel step nCur nDec acc rem).samples ≤ fuel := by
  intro fuel
  induction fuel with
  | zero =>
    intro step nCur nDec acc rem
    exact Nat.le_refl 0
  | succ n ih =>
    intro step nCur nDec acc rem
    simp only [genLoopStream]
    split_ifs <;> dsimp only <;>
      first
        | omega
        | exact Nat.add_le_add_right (ih _ _ _ _ _) 1

lemma genLoopBatch_samples_le (E : Engine) :
    ∀ (fuel step nCur nDec : Nat) (res : List Nat),
      (genLoopBatch E fuel step nCur nDec res).samples ≤ fuel := by
  intro fuel
  induction fuel with
  | zero =>
    intro step nCur nDec res
    exact Nat.le_refl 0
  | succ n ih =>
    intro step nCur nDec res
    simp only [genLoopBatch]
    split_ifs <;> dsimp only <;>
      first
        | omega
        | exact Nat.add_le_add_right (ih _ _ _ _) 1

lemma genLoopStream_flag_samples (E : Engine) (i : Nat)
    (hflag : ∀ j, i ≤ j → E.shouldStop j = true) :
    ∀ (fuel step nCur nDec : Nat) (acc rem : List Nat),
      (genLoopStream E fuel step nCur nDec acc rem).samples ≤ i - step := by
  intro fuel
  induction fuel with
  | zero =>
    intro step nCur nDec acc rem
    exact Nat.zero_le _
  | succ n ih =>
    intro step nCur nDec acc rem
    by_cases hcond : nCur ≤ E.nCtx ∧ nDec < E.nPredict ∧ E.shouldStop step = false
    · have hstep : step < i := by
        rcases Nat.lt_or_ge step i with h | h
        · exact h
        · have := hflag step h
          rw [this] at hcond
          simp at hcond
      simp only [genLoopStream, if_pos hcond]
      split_ifs <;> dsimp only <;>
        first
          | omega
          | exact le_trans (Nat.add_le_add_right (ih _ _ _ _ _) 1) (by omega)
    · simp only [genLoopStream, if_neg hcond]
      exact Nat.zero_le _

lemma genLoopStream_exitStep_ge (E : Engine) :
    ∀ (fuel step nCur nDec : Nat) (acc rem : List Nat),
      step ≤ (genLoopStream E fuel step nCur nDec acc rem).exitStep := by
  intro fuel
  induction fuel with
  | zero =>
    intro step nCur nDec acc rem
    exact Nat.le_refl step
  | succ n ih =>
    intro step nCur nDec acc rem
    simp only [genLoopStream]
    split_ifs <;> dsimp only <;>
      first
        | omega
        | exact le_trans (Nat.le_succ step) (ih _ _ _ _ _)

lemma genLoopStream_stopMarker (E : Engine) :
    ∀ (fuel step nCur nDec : Nat) (acc rem : List Nat),
      (genLoopStream E fuel step nCur nDec acc rem).reason = .stopMarker →
      (∀ p ∈ (genLoopStream E fuel step nCur nDec acc rem).emitted,
        p.1 < (genLoopStream E fuel step nCur nDec acc rem).exitStep) ∧
      hitsStop ((genLoopStream E fuel step nCur nDec acc rem).acc) = true := by
  intro fuel
  induction fuel with
  | zero =>
    intro step nCur nDec acc rem h
    simp [genLoopStream] at h
  | succ n ih =>
    intro step nCur nDec acc rem h
    simp only [genLoopStream] at h ⊢
    split_ifs at h ⊢ with h1 h2 h3 <;> dsimp only at h ⊢ <;>
      try simp at h
    · -- stop-marker break: nothing emitted in this iteration
      exact ⟨by intro p hp; simp at hp, h3⟩
    all_goals {
      rcases ih _ _ _ _ _ h with ⟨hemit, hacc⟩
      refine ⟨?_, hacc⟩
      intro p hp
      rcases List.mem_append.mp hp with hmem | hmem
      · have hp1 : p.1 = step := by
          simp at hmem
          all_goals (subst hmem; rfl)
        rw [hp1]
        exact Nat.lt_of_lt_of_le (Nat.lt_succ_self step)
          (genLoopStream_exitStep_ge E n (step + 1) (nCur + 1) (nDec + 1) _ _)
      · exact hemit p hmem
    }

/-! Arithmetic for the surrogate-pair round trip. -/

lemma or_low_bits (q r : Nat) (h : r < 0x400) : (q <<< 10) ||| r = q * 0x400 + r := by
  have h2 : r < 2 ^ 10 := by norm_num; omega
  have h3 := Nat.mul_add_lt_is_or h2 q
  rw [Nat.mul_comm (2 ^ 10) q] at h3
  rw [Nat.shiftLeft_eq, ← h3]

/-- Merging the surrogate pair built by the UTF-16 encoder recovers the
original scalar value. -/
lemma mergeSurrogates_encode {v : Nat} (h1 : 0x10000 ≤ v) (h2 : v ≤ 0x10FFFF) :
    mergeSurrogates (0xD800 + ((v - 0x10000) >>> 10))
      (0xDC00 + ((v - 0x10000) &&& 0x3FF)) = v := by
  unfold mergeSurrogates
  have e1 : 0xD800 + ((v - 0x10000) >>> 10) - 0xD800 = (v - 0x10000) >>> 10 := by omega
  have e2 : 0xDC00 + ((v - 0x10000) &&& 0x3FF) - 0xDC00 = (v - 0x10000) &&& 0x3FF := by
    omega
  rw [e1, e2]
  have hmod : (v - 0x10000) &&& 0x3FF = (v - 0x10000) % 2 ^ 10 := by
    have h01 : (0x3FF : Nat) = 2 ^ 10 - 1 := by norm_num
    rw [h01, Nat.and_pow_two_sub_one_eq_mod]
  have hdiv : (v - 0x10000) >>> 10 = (v - 0x10000) / 2 ^ 10 :=
    Nat.shiftRight_eq_div_pow _ _
  have hlt : (v - 0x10000) % 2 ^ 10 < 0x400 := by
    have := Nat.mod_lt (v - 0x10000) (show 0 < 2 ^ 10 by norm_num)
    norm_num at this ⊢
    omega
  rw [hmod, hdiv, or_low_bits _ _ hlt]
  have hdm := Nat.div_add_mod (v - 0x10000) (2 ^ 10)
  norm_num at hdm ⊢
  omega

/-! Counting completion events. -/

lemma countComplete_append : ∀ (a b : List Ev),
    countComplete (a ++ b) = countComplete a + countComplete b := by
  intro a b
  induction a with
  | nil => simp [countComplete]
  | cons e rest ih =>
    cases e <;> simp [countComplete, ih] <;> omega

lemma countComplete_map_tok (l : List (Nat × List Nat)) :
    countComplete (l.map (fun p => Ev.tok p.2)) = 0 := by
  induction l with
  | nil => rfl
  | cons p rest ih => simpa [countComplete] using ih

/-! The claims. -/

/-- C1: chunk invariance of the streaming transcoder: feeding any chunk
split of a byte sequence through `safeNewStringUTFStreaming` in order,
starting from an empty remainder and carrying the remainder between the
calls, emits exactly the code units of a single whole-sequence call, and
ends with the same final remainder. -/
theorem C1_chunk_invariance (cs : List (List Nat)) :
    streamChunks cs [] = safeNewStringUTFStreaming cs.flatten [] := by
  have h := streamChunks_eq_scan cs [] (Or.inl rfl)
  simpa [safeNewStringUTFStreaming] using h

/-- C2 counterexample: invoked with no model/context loaded,
`nativeGenerateStream` returns immediately without ever invoking
`onComplete`, refuting "exactly once for every invocation". -/
theorem C2_counterexample :
    countComplete (nativeGenerateStream false engFlag) = 0 ∧
    countComplete (nativeGenerateStream false engFlag) ≠ 1 := by
  decide

/-- C2 (amended): whenever a model and context are loaded, every invocation
of `nativeGenerateStream` invokes `onComplete` exactly once before
returning, whichever termination path is taken (initial decode failure,
end-of-generation token, stop marker, token or context limit, cancellation,
or decode failure inside the loop); with no model/context loaded the
function returns without invoking the callback at all. -/
theorem C2_complete_once (E : Engine) :
    countComplete (nativeGenerateStream true E) = 1 := by
  simp only [nativeGenerateStream]
  split_ifs <;>
    first
      | (simp_all [countComplete]; done)
      | (simp [countComplete_append, countComplete_map_tok, countComplete]
         done)

/-- C3: stop-marker precedence in the streaming generation loop: the
accumulated text is scanned after appending each token's bytes and before
that token's fragment is emitted, so when the loop exits with the
stop-marker reason, every delivered fragment carries an iteration index
strictly below the exit iteration — neither the matching token's own
fragment nor any later token is delivered — and the accumulated text at
exit does contain a stop marker. -/
theorem C3_stop_precedence (E : Engine) (fuel step nCur nDec : Nat)
    (acc rem : List Nat)
    (h : (genLoopStream E fuel step nCur nDec acc rem).reason = .stopMarker) :
    (∀ p ∈ (genLoopStream E fuel step nCur nDec acc rem).emitted,
      p.1 < (genLoopStream E fuel step nCur nDec acc rem).exitStep) ∧
    hitsStop ((genLoopStream E fuel step nCur nDec acc rem).acc) = true :=
  genLoopStream_stopMarker E fuel step nCur nDec acc rem h

/-- C3 witness: the concrete engine whose first token decodes to `<|end|>`
exits with the stop-marker reason at iteration 0 and delivers nothing. -/
theorem C3_witness :
    (∀ p ∈ (genLoopStream engStop 5 0 1 0 [] []).emitted,
      p.1 < (genLoopStream engStop 5 0 1 0 [] []).exitStep) ∧
    hitsStop ((genLoopStream engStop 5 0 1 0 [] []).acc) = true :=
  C3_stop_precedence engStop 5 0 1 0 [] [] (by decide)

/-- C4 counterexample: the batch loop of `nativeGenerate` never reads the
cancellation flag: with the flag reading true at every iteration
(`engFlag`), it still samples two tokens, refuting "at most one further
token is sampled once the flag is set" for the batch entry point. -/
theorem C4_counterexample :
    engFlag.shouldStop 0 = true ∧
    (genLoopBatch engFlag 2 0 1 0 []).samples = 2 := by
  decide

/-- C4 (amended): the streaming loop checks the shared cancellation flag
once per generated token, before sampling: if the flag reads true from
iteration `i` on, at most `i` tokens are sampled in total.  The batch loop
of `nativeGenerate` performs no such check (see the counterexample). -/
theorem C4_cancel_latency (E : Engine) (i : Nat)
    (hflag : ∀ j, i ≤ j → E.shouldStop j = true)
    (nCur : Nat) (acc rem : List Nat) :
    (genLoopStream E E.nPredict 0 nCur 0 acc rem).samples ≤ i := by
  have h := genLoopStream_flag_samples E i hflag E.nPredict 0 nCur 0 acc rem
  simpa using h

/-- C4 witness: with the flag set from the very start, the streaming loop
samples no token at all. -/
theorem C4_witness :
    (genLoopStream engFlag engFlag.nPredict 0 1 0 [] []).samples ≤ 0 :=
  C4_cancel_latency engFlag 0 (fun _ _ => rfl) 1 [] []

/-- C5 counterexample: a flush call with an empty chunk on the remainder
F0 9F (a truncated four-byte sequence) leaves the remainder buffer
unchanged and non-empty — the call does carry the bytes over, refuting
"after the flush call returns, the remainder buffer is empty". -/
theorem C5_counterexample :
    (safeNewStringUTFStreaming [] [0xF0, 0x9F]).2 = [0xF0, 0x9F] ∧
    (safeNewStringUTFStreaming [] [0xF0, 0x9F]).2 ≠ [] := by
  decide

/-- C5 (amended): a flush call with an empty chunk on a remainder that is a
truncated multi-byte sequence emits no code units and leaves the remainder
buffer exactly as it was; the truncated bytes are never emitted as output,
and are discarded only when the enclosing `nativeGenerateStream` returns
and its local remainder goes out of scope. -/
theorem C5_flush_keeps_remainder (r : List Nat)
    (h : decodeStep r = Step.incomplete) :
    safeNewStringUTFStreaming [] r = ([], r) := by
  show scanStream (r ++ []) = ([], r)
  rw [List.append_nil]
  exact scan_incomplete_fix h

/-- C5 witness: flushing the truncated remainder F0 9F emits nothing and
keeps the two bytes. -/
theorem C5_witness :
    safeNewStringUTFStreaming [] [0xF0, 0x9F] = ([], [0xF0, 0x9F]) :=
  C5_flush_keeps_remainder [0xF0, 0x9F] (by decide)

/-- C6 counterexample: at the overlong two-byte sequence C0 80 the decoder
reports an error but the scan skips two bytes, not one, refuting "skips
exactly one byte" for the overlong error class. -/
theorem C6_counterexample :
    decodeStep [0xC0, 0x80] = Step.err 2 ∧ (2 : Nat) ≠ 1 := by
  decide

/-- C6 (amended): on an invalid leading byte or malformed continuation the
scan skips exactly one byte, while on overlong, surrogate-range and
out-of-range codepoints it skips the whole sequence length; in every error
case at least one and at most four bytes (never more than remain) are
consumed, so every scan makes forward progress and terminates. -/
theorem C6_error_progress (l : List Nat) (k : Nat)
    (h : decodeStep l = Step.err k) : 1 ≤ k ∧ k ≤ l.length ∧ k ≤ 4 :=
  decodeStep_err_bounds h

/-- C6 witness: the overlong sequence C0 80 consumes two of its two bytes. -/
theorem C6_witness :
    1 ≤ 2 ∧ (2 : Nat) ≤ ([0xC0, 0x80] : List Nat).length ∧ (2 : Nat) ≤ 4 :=
  C6_error_progress [0xC0, 0x80] 2 (by decide)

/-- C7: surrogate-pair round trip: every scalar value in
[0x10000, 0x10FFFF] encodes to exactly the surrogate pair
(0xD800 + ((v-0x10000) >> 10), 0xDC00 + ((v-0x10000) & 0x3FF)) and nothing
else, the sanitizer's merge formula recovers exactly `v` from that pair,
and every value up to 0xFFFF encodes to the single code unit equal to
itself. -/
theorem C7_surrogate_roundtrip (v : Nat) :
    (0x10000 ≤ v → v ≤ 0x10FFFF →
      utf16Encode v = [0xD800 + ((v - 0x10000) >>> 10),
                       0xDC00 + ((v - 0x10000) &&& 0x3FF)] ∧
      mergeSurrogates (0xD800 + ((v - 0x10000) >>> 10))
        (0xDC00 + ((v - 0x10000) &&& 0x3FF)) = v) ∧
    (v ≤ 0xFFFF → utf16Encode v = [v]) := by
  constructor
  · intro h1 h2
    constructor
    · unfold utf16Encode
      rw [if_neg (by omega)]
    · exact mergeSurrogates_encode h1 h2
  · intro h
    unfold utf16Encode
    rw [if_pos h]

/-- C7 witness: U+1F600 encodes to the pair (0xD83D, 0xDE00) and merges
back; U+0041 encodes to itself. -/
theorem C7_witness :
    (utf16Encode 0x1F600 = [0xD800 + ((0x1F600 - 0x10000) >>> 10),
                            0xDC00 + ((0x1F600 - 0x10000) &&& 0x3FF)] ∧
     mergeSurrogates (0xD800 + ((0x1F600 - 0x10000) >>> 10))
       (0xDC00 + ((0x1F600 - 0x10000) &&& 0x3FF)) = 0x1F600) ∧
    utf16Encode 0x41 = [0x41] :=
  ⟨(C7_surrogate_roundtrip 0x1F600).1 (by decide) (by decide),
   (C7_surrogate_roundtrip 0x41).2 (by decide)⟩

/-- C8: termination bound: started with a zero decoded-token counter, both
generation loops perform at most `nPredict` sample-decode iterations (each
iteration samples exactly once) for every engine behaviour, context size,
prompt position and starting buffers; both loops are total functions of
their inputs. -/
theorem C8_token_budget (E : Engine) (nCur : Nat) (acc rem res : List Nat) :
    (genLoopStream E E.nPredict 0 nCur 0 acc rem).samples ≤ E.nPredict ∧
    (genLoopBatch E E.nPredict 0 nCur 0 res).samples ≤ E.nPredict :=
  ⟨genLoopStream_samples_le E E.nPredict 0 nCur 0 acc rem,
   genLoopBatch_samples_le E E.nPredict 0 nCur 0 res⟩

/-- C9: remainder-buffer invariant: after every call to the streaming
transcoder the remainder holds at most 3 bytes, and each call logically
prepends the incoming remainder to the new chunk before decoding begins. -/
theorem C9_remainder_inv (chunk rem : List Nat) :
    (safeNewStringUTFStreaming chunk rem).2.length ≤ 3 ∧
    safeNewStringUTFStreaming chunk rem = scanStream (rem ++ chunk) :=
  ⟨scan_rem_len (rem ++ chunk), rfl⟩

/-- C10: every code-unit sequence produced by a single transcoder call —
a streamed fragment of `safeNewStringUTFStreaming` or a whole conversion
by `safeNewStringUTF` — is well-formed UTF-16: every high surrogate is
immediately followed by a low surrogate within the same output and no low
surrogate is unpaired; in particular a surrogate pair is never split
across two successive streamed fragments. -/
theorem C10_wf16_output :
    (∀ chunk rem : List Nat, wf16 (safeNewStringUTFStreaming chunk rem).1 = true) ∧
    (∀ bytes : List Nat, wf16 (safeNewStringUTF bytes) = true) := by
  constructor
  · intro chunk rem
    exact scanGo_wf (rem ++ chunk).length (rem ++ chunk)
  · exact safeNewStringUTF_wf

end LlamaJni
